import Mathlib

/-!
Shallow embedding of the sveltemark markdown editor's core algorithms:
block segmentation and diffing (`src/lib/markdown.ts`) and the
editor/preview scroll synchronization (`src/routes/+page.svelte`).
Pixel quantities (scroll offsets, heights) are JavaScript numbers in the
source; they are embedded as exact rationals `ℚ`.  Line numbers and list
indices are embedded as `Nat`.
-/

namespace Sveltemark

/-- `MarkdownBlock` from `markdown.ts`: a markdown block with its source and
rendered HTML. -/
structure MarkdownBlock where
  id : String
  source : String
  html : String
  startLine : Nat
  endLine : Nat
deriving DecidableEq, Repr, Inhabited

/-- The four classifications of `BlockDiff.type` in `markdown.ts`:
`'add' | 'remove' | 'update' | 'keep'`. -/
inductive DiffType where
  | add
  | remove
  | update
  | keep
deriving DecidableEq, Repr, Inhabited

/-- `BlockDiff` from `markdown.ts`.  The optional fields `block` and
`oldIndex` are present only on the variants that set them in the source. -/
structure BlockDiff where
  type : DiffType
  index : Nat
  block : Option MarkdownBlock := none
  oldIndex : Option Nat := none
deriving DecidableEq, Repr, Inhabited

/-- One iteration of the loop body of `diffBlocks` at position `i`:
`oldBlocks[i]` / `newBlocks[i]` are `undefined` out of range (here `none`),
and the three `if` branches of the source push the corresponding entry.
When both are absent nothing is pushed (unreachable for `i < maxLen`). -/
def diffEntry (oldBlocks newBlocks : List MarkdownBlock) (i : Nat) : Option BlockDiff :=
  match oldBlocks[i]?, newBlocks[i]? with
  | none, some newBlock => some { type := .add, index := i, block := some newBlock }
  | some _, none => some { type := .remove, index := i, oldIndex := some i }
  | some oldBlock, some newBlock =>
      if oldBlock.source = newBlock.source then
        some { type := .keep, index := i, block := some newBlock }
      else
        some { type := .update, index := i, block := some newBlock, oldIndex := some i }
  | none, none => none

/-- `diffBlocks` from `markdown.ts`: loop `i = 0 .. maxLen - 1` over
`maxLen = max(oldBlocks.length, newBlocks.length)`, pushing the entry the
loop body produces at each `i`. -/
def diffBlocks (oldBlocks newBlocks : List MarkdownBlock) : List BlockDiff :=
  (List.range (max oldBlocks.length newBlocks.length)).filterMap (diffEntry oldBlocks newBlocks)

/-- Total version of `diffEntry`, defined (with the same value) at every
in-range position; the `none, none` case is junk and unreachable there. -/
def diffEntryTotal (oldBlocks newBlocks : List MarkdownBlock) (i : Nat) : BlockDiff :=
  match oldBlocks[i]?, newBlocks[i]? with
  | none, some newBlock => { type := .add, index := i, block := some newBlock }
  | some _, none => { type := .remove, index := i, oldIndex := some i }
  | some oldBlock, some newBlock =>
      if oldBlock.source = newBlock.source then
        { type := .keep, index := i, block := some newBlock }
      else
        { type := .update, index := i, block := some newBlock, oldIndex := some i }
  | none, none => { type := .keep, index := i }

lemma diffEntry_eq_some (oldBlocks newBlocks : List MarkdownBlock) (i : Nat)
    (hi : i < max oldBlocks.length newBlocks.length) :
    diffEntry oldBlocks newBlocks i = some (diffEntryTotal oldBlocks newBlocks i) := by
  unfold diffEntry diffEntryTotal
  rcases h1 : oldBlocks[i]? with _ | ob <;> rcases h2 : newBlocks[i]? with _ | nb
  · exfalso
    rw [List.getElem?_eq_none_iff] at h1 h2
    omega
  · rfl
  · rfl
  · by_cases h : ob.source = nb.source <;> simp [h]

lemma filterMap_range_eq_map {β : Type} (n : Nat) (f : Nat → Option β) (g : Nat → β)
    (h : ∀ i, i < n → f i = some (g i)) :
    (List.range n).filterMap f = (List.range n).map g := by
  induction n with
  | zero => simp
  | succ n ih =>
      rw [List.range_succ, List.filterMap_append, List.map_append,
        ih (fun i hi => h i (Nat.lt_succ_of_lt hi))]
      simp [h n (Nat.lt_succ_self n)]

lemma diffBlocks_eq_map (oldBlocks newBlocks : List MarkdownBlock) :
    diffBlocks oldBlocks newBlocks =
      (List.range (max oldBlocks.length newBlocks.length)).map
        (diffEntryTotal oldBlocks newBlocks) :=
  filterMap_range_eq_map _ _ _ (diffEntry_eq_some oldBlocks newBlocks)

lemma diffEntryTotal_index (oldBlocks newBlocks : List MarkdownBlock) (i : Nat) :
    (diffEntryTotal oldBlocks newBlocks i).index = i := by
  unfold diffEntryTotal
  rcases oldBlocks[i]? with _ | ob <;> rcases newBlocks[i]? with _ | nb
  · rfl
  · rfl
  · rfl
  · by_cases h : ob.source = nb.source <;> simp [h]

lemma diffBlocks_type_getElem (oldBlocks newBlocks : List MarkdownBlock) (i : Nat)
    (hi : i < max oldBlocks.length newBlocks.length) :
    ((diffBlocks oldBlocks newBlocks).map (fun d => d.type))[i]? =
      some ((diffEntryTotal oldBlocks newBlocks i).type) := by
  rw [diffBlocks_eq_map, List.map_map, List.getElem?_map, List.getElem?_range hi]
  rfl

lemma diffEntryTotal_type_add (oldBlocks newBlocks : List MarkdownBlock) (i : Nat)
    (h1 : oldBlocks.length ≤ i) (h2 : i < newBlocks.length) :
    (diffEntryTotal oldBlocks newBlocks i).type = DiffType.add := by
  unfold diffEntryTotal
  rw [List.getElem?_eq_none h1, List.getElem?_eq_getElem h2]

lemma diffEntryTotal_type_remove (oldBlocks newBlocks : List MarkdownBlock) (i : Nat)
    (h1 : i < oldBlocks.length) (h2 : newBlocks.length ≤ i) :
    (diffEntryTotal oldBlocks newBlocks i).type = DiffType.remove := by
  unfold diffEntryTotal
  rw [List.getElem?_eq_getElem h1, List.getElem?_eq_none h2]

lemma diffEntryTotal_type_compare (oldBlocks newBlocks : List MarkdownBlock) (i : Nat)
    (h1 : i < oldBlocks.length) (h2 : i < newBlocks.length) :
    (diffEntryTotal oldBlocks newBlocks i).type =
      (if oldBlocks[i].source = newBlocks[i].source then DiffType.keep else DiffType.update) := by
  unfold diffEntryTotal
  rw [List.getElem?_eq_getElem h1, List.getElem?_eq_getElem h2]
  by_cases h : oldBlocks[i].source = newBlocks[i].source <;> simp [h]

/-- C3: for every block list `B`, `diffBlocks B B` (a list diffed against
itself) classifies every position as `keep`. -/
theorem diffBlocks_self_keep (B : List MarkdownBlock) :
    (diffBlocks B B).map (fun d => d.type) = List.replicate B.length DiffType.keep := by
  rw [diffBlocks_eq_map, List.map_map, Nat.max_self]
  refine List.eq_replicate_iff.mpr ⟨by simp, ?_⟩
  intro t ht
  rw [List.mem_map] at ht
  obtain ⟨i, hi, rfl⟩ := ht
  rw [List.mem_range] at hi
  show (diffEntryTotal B B i).type = DiffType.keep
  rw [diffEntryTotal_type_compare B B i hi hi, if_pos rfl]

/-- C10: `diffBlocks old new` returns exactly
`max old.length new.length` entries, and the entry at output position `i`
carries `index = i`; the output thus covers every position of the longer
list exactly once, in ascending positional order. -/
theorem diffBlocks_positions (oldBlocks newBlocks : List MarkdownBlock) :
    (diffBlocks oldBlocks newBlocks).length = max oldBlocks.length newBlocks.length
    ∧ (diffBlocks oldBlocks newBlocks).map (fun d => d.index) =
        List.range (max oldBlocks.length newBlocks.length) := by
  constructor
  · rw [diffBlocks_eq_map, List.length_map, List.length_range]
  · rw [diffBlocks_eq_map, List.map_map]
    have : ∀ i ∈ List.range (max oldBlocks.length newBlocks.length),
        ((fun d => d.index) ∘ diffEntryTotal oldBlocks newBlocks) i = id i := by
      intro i _
      simpa using diffEntryTotal_index oldBlocks newBlocks i
    rw [List.map_congr_left this, List.map_id]

/-- C6: `diffBlocks [] new` classifies every position as `add` and
`diffBlocks old []` classifies every position as `remove`; in general
trailing new positions (old exhausted) are `add`, trailing old positions
(new exhausted) are `remove`, and where both lists have a block the
classification is `keep` exactly when the two sources are identical and
`update` otherwise. -/
theorem diffBlocks_stability (oldBlocks newBlocks : List MarkdownBlock) :
    ((diffBlocks [] newBlocks).map (fun d => d.type) =
        List.replicate newBlocks.length DiffType.add)
    ∧ ((diffBlocks oldBlocks []).map (fun d => d.type) =
        List.replicate oldBlocks.length DiffType.remove)
    ∧ (∀ i, oldBlocks.length ≤ i → i < newBlocks.length →
        ((diffBlocks oldBlocks newBlocks).map (fun d => d.type))[i]? = some DiffType.add)
    ∧ (∀ i, newBlocks.length ≤ i → i < oldBlocks.length →
        ((diffBlocks oldBlocks newBlocks).map (fun d => d.type))[i]? = some DiffType.remove)
    ∧ (∀ i, (hi : i < oldBlocks.length) → (hj : i < newBlocks.length) →
        ((diffBlocks oldBlocks newBlocks).map (fun d => d.type))[i]? =
          some (if oldBlocks[i].source = newBlocks[i].source
                then DiffType.keep else DiffType.update)) := by
  refine ⟨?_, ?_, ?_, ?_, ?_⟩
  · rw [diffBlocks_eq_map, List.map_map]
    refine List.eq_replicate_iff.mpr ⟨by simp, ?_⟩
    intro t ht
    rw [List.mem_map] at ht
    obtain ⟨i, hi, rfl⟩ := ht
    rw [List.mem_range] at hi
    simp only [List.length_nil, Nat.max_eq_right (Nat.zero_le _)] at hi
    exact diffEntryTotal_type_add [] newBlocks i (Nat.zero_le i) hi
  · rw [diffBlocks_eq_map, List.map_map]
    refine List.eq_replicate_iff.mpr ⟨by simp, ?_⟩
    intro t ht
    rw [List.mem_map] at ht
    obtain ⟨i, hi, rfl⟩ := ht
    rw [List.mem_range] at hi
    simp only [List.length_nil, Nat.max_eq_left (Nat.zero_le _)] at hi
    exact diffEntryTotal_type_remove oldBlocks [] i hi (Nat.zero_le i)
  · intro i h1 h2
    rw [diffBlocks_type_getElem oldBlocks newBlocks i (lt_of_lt_of_le h2 (le_max_right _ _)),
      diffEntryTotal_type_add oldBlocks newBlocks i h1 h2]
  · intro i h1 h2
    rw [diffBlocks_type_getElem oldBlocks newBlocks i (lt_of_lt_of_le h2 (le_max_left _ _)),
      diffEntryTotal_type_remove oldBlocks newBlocks i h2 h1]
  · intro i h1 h2
    rw [diffBlocks_type_getElem oldBlocks newBlocks i (lt_of_lt_of_le h1 (le_max_left _ _)),
      diffEntryTotal_type_compare oldBlocks newBlocks i h1 h2]

/-- Sample blocks for concrete evaluations: a two-block document
(`blkA`, `blkB`) and the result of inserting a new first block
(`blkN`, then the old two shifted down as `blkA2`, `blkB2`). -/
def blkA : MarkdownBlock :=
  { id := "idA", source := "# A", html := "<h1>A</h1>", startLine := 1, endLine := 1 }

def blkB : MarkdownBlock :=
  { id := "idB", source := "text", html := "<p>text</p>", startLine := 3, endLine := 3 }

def blkN : MarkdownBlock :=
  { id := "idN", source := "# New", html := "<h1>New</h1>", startLine := 1, endLine := 1 }

def blkA2 : MarkdownBlock :=
  { id := "idA2", source := "# A", html := "<h1>A</h1>", startLine := 3, endLine := 3 }

def blkB2 : MarkdownBlock :=
  { id := "idB2", source := "text", html := "<p>text</p>", startLine := 5, endLine := 5 }

/-- C5 (counterexample): inserting a new block at the top of a 2-block
document does NOT yield the classification sequence
`[add, update, update]` in that order: `diffBlocks` walks positions in
ascending index order, so the `add` for the extra trailing position comes
last. -/
theorem diffBlocks_insert_top_cex :
    (diffBlocks [blkA, blkB] [blkN, blkA2, blkB2]).map (fun d => d.type) ≠
      [DiffType.add, DiffType.update, DiffType.update] := by
  decide

/-- C5 (amended): inserting a new block at the top of a 2-block document
(the old blocks now at positions 1 and 2, with different content at every
compared index) yields the classification sequence
`[update, update, add]`: both compared positions are `update` and the
single trailing new position is `add`, at index 2. -/
theorem diffBlocks_insert_top_amended (a b n a2 b2 : MarkdownBlock)
    (h1 : a.source ≠ n.source) (h2 : b.source ≠ a2.source) :
    (diffBlocks [a, b] [n, a2, b2]).map (fun d => d.type) =
      [DiffType.update, DiffType.update, DiffType.add] := by
  have hmax : max ([a, b] : List MarkdownBlock).length
      ([n, a2, b2] : List MarkdownBlock).length = 3 := by simp
  rw [diffBlocks_eq_map, hmax]
  have hr : List.range 3 = [0, 1, 2] := by simp [List.range_succ]
  rw [hr]
  simp only [List.map_map, List.map_cons, List.map_nil, Function.comp]
  unfold diffEntryTotal
  simp [Ne.symm h1, Ne.symm h2, h1, h2]

theorem diffBlocks_insert_top_amended_check :
    (diffBlocks [blkA, blkB] [blkN, blkA2, blkB2]).map (fun d => d.type) =
      [DiffType.update, DiffType.update, DiffType.add] :=
  diffBlocks_insert_top_amended blkA blkB blkN blkA2 blkB2 (by decide) (by decide)

theorem diffBlocks_stability_check :
    ((diffBlocks [] [blkN, blkA2, blkB2]).map (fun d => d.type) =
        List.replicate 3 DiffType.add)
    ∧ ((diffBlocks [blkA, blkB] []).map (fun d => d.type) =
        List.replicate 2 DiffType.remove)
    ∧ (((diffBlocks [blkA, blkB] [blkN, blkA2, blkB2]).map (fun d => d.type))[2]? =
        some DiffType.add)
    ∧ (((diffBlocks [blkN, blkA2, blkB2] [blkA, blkB]).map (fun d => d.type))[2]? =
        some DiffType.remove)
    ∧ (((diffBlocks [blkA, blkB] [blkN, blkA2, blkB2]).map (fun d => d.type))[0]? =
        some (if ([blkA, blkB] : List MarkdownBlock)[0].source =
                  ([blkN, blkA2, blkB2] : List MarkdownBlock)[0].source
              then DiffType.keep else DiffType.update)) :=
  ⟨(diffBlocks_stability [] [blkN, blkA2, blkB2]).1,
   (diffBlocks_stability [blkA, blkB] []).2.1,
   (diffBlocks_stability [blkA, blkB] [blkN, blkA2, blkB2]).2.2.1 2 (by decide) (by decide),
   (diffBlocks_stability [blkN, blkA2, blkB2] [blkA, blkB]).2.2.2.1 2 (by decide) (by decide),
   (diffBlocks_stability [blkA, blkB] [blkN, blkA2, blkB2]).2.2.2.2 0 (by decide) (by decide)⟩


/-- JavaScript's `markdown.split('\n')`, i.e. the list of lines of the
document (structural recursion over the characters, so concrete documents
evaluate inside the kernel). -/
def splitLinesAux : List Char → List Char → List String
  | [], acc => [String.mk acc.reverse]
  | c :: cs, acc =>
      if c = '\n' then String.mk acc.reverse :: splitLinesAux cs []
      else splitLinesAux cs (c :: acc)

def splitLines (s : String) : List String := splitLinesAux s.data []

/-- Whitespace as stripped by JavaScript's `String.prototype.trim` (the
ASCII part: space, tab, newline, carriage return, form feed, vertical
tab). -/
def isJsWhitespace (c : Char) : Bool :=
  c = ' ' || c = '\t' || c = '\n' || c = '\r' || c = '\x0c' || c = '\x0b'

/-- JavaScript's `markdown.trim()`: leading and trailing whitespace
removed. -/
def jsTrim (s : String) : String :=
  String.mk (((s.data.dropWhile isJsWhitespace).reverse.dropWhile isJsWhitespace).reverse)

/-- `node.position.start.line` and `node.position.end.line` of an mdast
node, the only parts of a position `splitIntoBlocks` consults. -/
structure NodePosition where
  startLine : Nat
  endLine : Nat
deriving DecidableEq, Repr, Inhabited

/-- An mdast top-level node as consumed by `splitIntoBlocks`: only the
optional `position` is used. -/
structure MdastNode where
  position : Option NodePosition
deriving DecidableEq, Repr, Inhabited

/-- Output element of `splitIntoBlocks`: `{ source, startLine, endLine }`. -/
structure RawBlock where
  source : String
  startLine : Nat
  endLine : Nat
deriving DecidableEq, Repr, Inhabited

/-- The block `splitIntoBlocks` pushes for a positioned node:
`lines.slice(startLine - 1, endLine).join('\n')` becomes
drop / take / intercalate (slice's end bound `endLine` minus its start
bound `startLine - 1` elements are taken). -/
def rawBlockOfPos (lines : List String) (pos : NodePosition) : RawBlock :=
  { source := String.intercalate "\n"
      ((lines.drop (pos.startLine - 1)).take (pos.endLine - (pos.startLine - 1)))
    startLine := pos.startLine
    endLine := pos.endLine }

/-- `splitIntoBlocks` from `markdown.ts`.  The external structural parser
(`parser.parse`, i.e. unified/remark — outside the repository) is passed
as the function `parse` returning the parsed tree's top-level children.
A block is emitted for exactly the nodes carrying a position. -/
def splitIntoBlocks (parse : String → List MdastNode) (markdown : String) :
    List RawBlock :=
  if jsTrim markdown = "" then []
  else
    let lines := splitLines markdown
    (parse markdown).filterMap fun node => node.position.map (rawBlockOfPos lines)

/-- The document's number of lines; lines are numbered `1 .. totalLines`. -/
def totalLines (markdown : String) : Nat := (splitLines markdown).length

/-- Number of blocks whose `[startLine, endLine]` range contains `line`. -/
def lineCover (blocks : List RawBlock) (line : Nat) : Nat :=
  (blocks.filter fun b => decide (b.startLine ≤ line) && decide (line ≤ b.endLine)).length

/-- The blocks' line ranges cover exactly `[1, n]` with no gaps and no
overlaps: every line in the interval belongs to exactly one block, and no
block touches a line outside it. -/
def coversExactly (blocks : List RawBlock) (n : Nat) : Prop :=
  ∀ line : Nat, lineCover blocks line = (if 1 ≤ line ∧ line ≤ n then 1 else 0)

/-- The external remark parser's output on the concrete document
`"a\n\nb"` (two one-line paragraphs separated by a blank line): two
top-level nodes at lines 1–1 and 3–3.  This mirrors the behaviour the
spec itself documents for blank-separated blocks (its scenario
`"# A\n\ntext\n\n# B\n"` segments into ranges (1,1), (3,3), (5,5)). -/
def parseTwoParas : String → List MdastNode := fun _ =>
  [{ position := some { startLine := 1, endLine := 1 } },
   { position := some { startLine := 3, endLine := 3 } }]

/-- C4 (counterexample): the blocks produced for the document `"a\n\nb"`
do not cover `[1, totalLines]`: the blank separator line 2 belongs to no
block, so the segmentation has a gap. -/
theorem splitIntoBlocks_gap_cex :
    ¬ coversExactly (splitIntoBlocks parseTwoParas "a\n\nb") (totalLines "a\n\nb") := by
  intro h
  have h2 := h 2
  revert h2
  decide

/-- C4 (amended): the returned blocks carry exactly the parser's reported
node ranges in order; hence whenever the parser reports ordered,
non-overlapping positions within `[1, totalLines]`, the blocks' ranges are
ordered, non-overlapping and within `[1, totalLines]` — but a line may
belong to no block (blank separator lines are gaps, see the
counterexample). -/
theorem splitIntoBlocks_ranges (parse : String → List MdastNode) (markdown : String)
    (hord : List.Pairwise (fun p q => p.endLine < q.startLine)
      ((parse markdown).filterMap fun node => node.position))
    (hbound : ∀ node ∈ parse markdown, ∀ pos ∈ node.position,
      1 ≤ pos.startLine ∧ pos.startLine ≤ pos.endLine ∧ pos.endLine ≤ totalLines markdown) :
    List.Pairwise (fun b c => b.endLine < c.startLine) (splitIntoBlocks parse markdown)
    ∧ ∀ b ∈ splitIntoBlocks parse markdown,
        1 ≤ b.startLine ∧ b.startLine ≤ b.endLine ∧ b.endLine ≤ totalLines markdown := by
  unfold splitIntoBlocks
  by_cases hmt : jsTrim markdown = ""
  · simp [hmt]
  · rw [if_neg hmt, ← List.map_filterMap]
    constructor
    · rw [List.pairwise_map]
      exact hord
    · intro b hb
      rw [List.mem_map] at hb
      obtain ⟨pos, hpos, rfl⟩ := hb
      rw [List.mem_filterMap] at hpos
      obtain ⟨node, hnode, hp⟩ := hpos
      exact hbound node hnode pos hp

theorem splitIntoBlocks_ranges_check :
    List.Pairwise (fun b c => b.endLine < c.startLine)
      (splitIntoBlocks parseTwoParas "a\n\nb")
    ∧ ∀ b ∈ splitIntoBlocks parseTwoParas "a\n\nb",
        1 ≤ b.startLine ∧ b.startLine ≤ b.endLine ∧ b.endLine ≤ totalLines "a\n\nb" :=
  splitIntoBlocks_ranges parseTwoParas "a\n\nb" (by decide) (by decide)

/-- 32-bit signed integer truncation, as JavaScript's `<<` and `&`
operators apply to their operands and results inside `generateBlockId`'s
hash loop. -/
def toInt32 (x : ℤ) : ℤ := (x + 2 ^ 31) % 2 ^ 32 - 2 ^ 31

/-- One iteration of `generateBlockId`'s loop:
`hash = ((hash << 5) - hash) + char; hash = hash & hash`.
`hash << 5` truncates the shifted value to 32 bits; the subtraction and
addition are exact (they stay far below 2^53); `hash & hash` truncates
back to 32 bits. -/
def hashStep (hash : ℤ) (c : Nat) : ℤ := toInt32 (toInt32 (hash * 32) - hash + c)

/-- The string-hash loop of `generateBlockId`, starting from `hash = 0`.
`str.charCodeAt(i)` is modelled by the character's code point (identical
for basic-plane characters). -/
def jsHash (str : String) : ℤ := str.data.foldl (fun h c => hashStep h c.toNat) 0

/-- Digit characters `0-9a-z` as used by JavaScript's
`Number.prototype.toString(base)`. -/
def digitChar36 (d : Nat) : Char :=
  if d < 10 then Char.ofNat (48 + d) else Char.ofNat (87 + d)

/-- JavaScript's `Number.prototype.toString(base)` for a non-negative
integer: most-significant-first base-`base` digits, `"0"` for zero.  At
base 10 this is also the conversion the template literal in
`generateBlockId` applies to `index` and `startLine`. -/
def natToStringBase (base n : Nat) : String :=
  if n = 0 then "0" else String.mk (((Nat.digits base n).reverse).map digitChar36)

/-- `generateBlockId` from `markdown.ts`:
`` b${index}-${Math.abs(hash).toString(36)}-${startLine} `` where `hash`
is the 32-bit string hash of `source + '|' + startLine`. -/
def generateBlockId (source : String) (startLine : Nat) (index : Nat) : String :=
  let hash := jsHash (source ++ "|" ++ natToStringBase 10 startLine)
  "b" ++ natToStringBase 10 index ++ "-" ++ natToStringBase 36 hash.natAbs
    ++ "-" ++ natToStringBase 10 startLine

/-- `processBlock` from `markdown.ts`; the external `blockProcessor`
rendering pipeline is passed as `render` (the `await` is irrelevant to the
value produced). -/
def processBlock (render : String → String) (source : String) : String :=
  if jsTrim source = "" then "" else render source

/-- `processMarkdownBlocks` from `markdown.ts`: split into raw blocks,
then render each one and tag it with the id generated from its content,
start line and ordinal position `i`. -/
def processMarkdownBlocks (parse : String → List MdastNode)
    (render : String → String) (markdown : String) : List MarkdownBlock :=
  (splitIntoBlocks parse markdown).enum.map fun p =>
    { id := generateBlockId p.2.source p.2.startLine p.1
      source := p.2.source
      html := processBlock render p.2.source
      startLine := p.2.startLine
      endLine := p.2.endLine }

lemma digitChar36_ne_dash : ∀ d, d < 36 → digitChar36 d ≠ '-' := by decide

/-- Left inverse of `digitChar36` on `[0, 36)`. -/
def digitVal36 (c : Char) : Nat :=
  if 97 ≤ c.toNat then c.toNat - 87 else c.toNat - 48

lemma digitVal36_digitChar36 : ∀ d, d < 36 → digitVal36 (digitChar36 d) = d := by decide

lemma map_digitChar36_inj {l1 l2 : List Nat} (h1 : ∀ d ∈ l1, d < 36)
    (h2 : ∀ d ∈ l2, d < 36) (h : l1.map digitChar36 = l2.map digitChar36) :
    l1 = l2 := by
  have hv := congrArg (List.map digitVal36) h
  rw [List.map_map, List.map_map] at hv
  have e1 : l1.map (digitVal36 ∘ digitChar36) = l1.map id :=
    List.map_congr_left fun d hd => digitVal36_digitChar36 d (h1 d hd)
  have e2 : l2.map (digitVal36 ∘ digitChar36) = l2.map id :=
    List.map_congr_left fun d hd => digitVal36_digitChar36 d (h2 d hd)
  rw [e1, e2, List.map_id, List.map_id] at hv
  exact hv

/-- If the base-`base` digit string of `n` is the single character `0`
then `n` is zero. -/
lemma eq_zero_of_digit_chars_eq_zero_char {base n : Nat} (hb1 : 1 < base)
    (hb36 : base ≤ 36)
    (h : ((Nat.digits base n).reverse).map digitChar36 = ['0']) : n = 0 := by
  rcases hrev : (Nat.digits base n).reverse with _ | ⟨d, rest⟩
  · have hnil : Nat.digits base n = [] := by
      simpa using congrArg List.reverse hrev
    rwa [Nat.digits_eq_nil_iff_eq_zero] at hnil
  · rw [hrev] at h
    rcases rest with _ | ⟨d2, rest2⟩
    · simp only [List.map_cons, List.map_nil] at h
      have hdchar : digitChar36 d = '0' := List.head_eq_of_cons_eq h
      have hdmem : d ∈ Nat.digits base n := by
        rw [← List.mem_reverse, hrev]
        exact List.mem_cons_self d []
      have hdlt : d < 36 := lt_of_lt_of_le (Nat.digits_lt_base hb1 hdmem) hb36
      have hv := congrArg digitVal36 hdchar
      rw [digitVal36_digitChar36 d hdlt] at hv
      have hz : digitVal36 '0' = 0 := by decide
      rw [hz] at hv
      have hdig : Nat.digits base n = [d] := by
        simpa using congrArg List.reverse hrev
      have h1 := Nat.ofDigits_digits base n
      rw [hdig, hv] at h1
      simpa [Nat.ofDigits_cons, Nat.ofDigits_nil] using h1.symm
    · simp at h

lemma natToStringBase_inj {base : Nat} (hb : 2 ≤ base) (hb36 : base ≤ 36)
    {m n : Nat} (h : natToStringBase base m = natToStringBase base n) : m = n := by
  have hb1 : 1 < base := hb
  unfold natToStringBase at h
  by_cases hm : m = 0 <;> by_cases hn : n = 0
  · omega
  · rw [if_pos hm, if_neg hn] at h
    have hd : ((Nat.digits base n).reverse).map digitChar36 = ['0'] :=
      (congrArg String.data h).symm
    exact absurd (eq_zero_of_digit_chars_eq_zero_char hb1 hb36 hd) hn
  · rw [if_neg hm, if_pos hn] at h
    have hd : ((Nat.digits base m).reverse).map digitChar36 = ['0'] :=
      congrArg String.data h
    exact absurd (eq_zero_of_digit_chars_eq_zero_char hb1 hb36 hd) hm
  · rw [if_neg hm, if_neg hn] at h
    have hd : ((Nat.digits base m).reverse).map digitChar36 =
        ((Nat.digits base n).reverse).map digitChar36 :=
      congrArg String.data h
    have hmaps := map_digitChar36_inj
      (fun d hd => lt_of_lt_of_le
        (Nat.digits_lt_base hb1 (List.mem_reverse.mp hd)) hb36)
      (fun d hd => lt_of_lt_of_le
        (Nat.digits_lt_base hb1 (List.mem_reverse.mp hd)) hb36) hd
    have hdig : Nat.digits base m = Nat.digits base n := by
      simpa using congrArg List.reverse hmaps
    calc m = Nat.ofDigits base (Nat.digits base m) := (Nat.ofDigits_digits base m).symm
      _ = Nat.ofDigits base (Nat.digits base n) := by rw [hdig]
      _ = n := Nat.ofDigits_digits base n

lemma natToStringBase_no_dash {base : Nat} (hb : 2 ≤ base) (hb36 : base ≤ 36)
    (n : Nat) : '-' ∉ (natToStringBase base n).data := by
  unfold natToStringBase
  by_cases hn : n = 0
  · rw [if_pos hn]
    decide
  · rw [if_neg hn]
    intro hmem
    simp only [String.data] at hmem
    rw [List.mem_map] at hmem
    obtain ⟨d, hd, hdc⟩ := hmem
    have hdlt : d < 36 := lt_of_lt_of_le
      (Nat.digits_lt_base hb (List.mem_reverse.mp hd)) hb36
    exact digitChar36_ne_dash d hdlt hdc

lemma append_dash_inj : ∀ (a : List Char) {b r s : List Char}, '-' ∉ a → '-' ∉ b →
    a ++ '-' :: r = b ++ '-' :: s → a = b := by
  intro a
  induction a with
  | nil =>
      intro b r s _ hb h
      cases b with
      | nil => rfl
      | cons d ds =>
          exfalso
          simp only [List.nil_append, List.cons_append, List.cons.injEq] at h
          exact hb (h.1 ▸ List.mem_cons_self d ds)
  | cons c cs ih =>
      intro b r s ha hb h
      cases b with
      | nil =>
          exfalso
          simp only [List.cons_append, List.nil_append, List.cons.injEq] at h
          exact ha (h.1 ▸ List.mem_cons_self c cs)
      | cons d ds =>
          simp only [List.cons_append, List.cons.injEq] at h
          have hcs : cs = ds :=
            ih (fun hx => ha (List.mem_cons_of_mem c hx))
              (fun hx => hb (List.mem_cons_of_mem d hx)) h.2
          rw [h.1, hcs]

/-- The ordinal `index` can be recovered from the generated id: ids built
from different indices are different strings, whatever the content and
start lines are. -/
lemma generateBlockId_index_inj {s1 s2 : String} {l1 l2 i1 i2 : Nat}
    (h : generateBlockId s1 l1 i1 = generateBlockId s2 l2 i2) : i1 = i2 := by
  unfold generateBlockId at h
  have hd := congrArg String.data h
  simp only [String.data_append, List.append_assoc, List.singleton_append,
    List.cons_append, List.cons.injEq] at hd
  have h10 : (2 : Nat) ≤ 10 := by omega
  have h10' : (10 : Nat) ≤ 36 := by omega
  have hA := append_dash_inj (natToStringBase 10 i1).data
    (natToStringBase_no_dash h10 h10' i1) (natToStringBase_no_dash h10 h10' i2) hd.2
  exact natToStringBase_inj h10 h10'
    (congrArg String.mk hA :
      String.mk (natToStringBase 10 i1).data = String.mk (natToStringBase 10 i2).data)

lemma enum_fst_pairwise_ne {α : Type} (l : List α) :
    List.Pairwise (fun p q : Nat × α => p.1 ≠ q.1) l.enum := by
  rw [List.pairwise_iff_getElem]
  intro i j hi hj hij
  rw [List.getElem_enum, List.getElem_enum]
  exact Nat.ne_of_lt hij

/-- C8: for every markdown input (whatever the external parser and
renderer return), the `id` fields of the blocks produced by
`processMarkdownBlocks` are pairwise distinct, even for duplicate content:
each id embeds the block's ordinal position, which differs between any two
blocks. -/
theorem processMarkdownBlocks_ids_distinct (parse : String → List MdastNode)
    (render : String → String) (markdown : String) :
    List.Pairwise (fun b1 b2 => b1.id ≠ b2.id)
      (processMarkdownBlocks parse render markdown) := by
  unfold processMarkdownBlocks
  rw [List.pairwise_map]
  refine List.Pairwise.imp ?_ (enum_fst_pairwise_ne (splitIntoBlocks parse markdown))
  intro p q hpq hid
  exact hpq (generateBlockId_index_inj hid)

/-- A per-view pixel geometry record
`{ startOffset, endOffset, height }` (the `editorDimension` /
`previewDimension` entries of `+page.svelte`'s `SectionDesc`). -/
structure Dimension where
  startOffset : ℚ
  endOffset : ℚ
  height : ℚ
deriving DecidableEq, Repr, Inhabited

/-- `SectionDesc` from `+page.svelte`: one scroll-mapping section linking
the editor-side and preview-side measured geometry of the same block. -/
structure SectionDesc where
  editorDimension : Dimension
  previewDimension : Dimension
deriving DecidableEq, Repr, Inhabited

/-- The `{ scrollTop, scrollHeight, clientHeight }` triple returned by the
views' `getScrollDimensions` and carried by scroll events. -/
structure ScrollDimensions where
  scrollTop : ℚ
  scrollHeight : ℚ
  clientHeight : ℚ
deriving DecidableEq, Repr, Inhabited

/-- The section-search loop of both sync functions: starting from
`currentSectionIdx = 0`, walk from the front and remember the last index
whose `startOffset` (under the source-side projection `fa`) is `≤ x`,
stopping at the first that is not.  The last index of the satisfying
prefix is its length minus one; `Nat` subtraction makes that 0 for the
empty prefix, exactly the loop's untouched initial value. -/
def currentSectionIdx (fa : SectionDesc → Dimension) (sections : List SectionDesc)
    (x : ℚ) : Nat :=
  (sections.takeWhile fun s => decide ((fa s).startOffset ≤ x)).length - 1

/-- `posInSection` of both sync functions: fractional progress (clamped to
`[0, 1]`) through the current section, measured against the next section's
start, or — for the last section — against
`max(sectionHeight, maxScroll - sectionStart)`; `0` whenever the guarded
division is skipped. -/
def posInSection (fa : SectionDesc → Dimension) (sections : List SectionDesc)
    (aMax x : ℚ) : ℚ :=
  let idx := currentSectionIdx fa sections x
  let currentSection := sections.getD idx default
  let sectionStart := (fa currentSection).startOffset
  match sections[idx + 1]? with
  | some nextSection =>
      let sectionEnd := (fa nextSection).startOffset
      let sectionRange := sectionEnd - sectionStart
      if 0 < sectionRange then max 0 (min 1 ((x - sectionStart) / sectionRange)) else 0
  | none =>
      let sectionHeight := (fa currentSection).height
      let distanceToEnd := aMax - sectionStart
      let effectiveRange := max sectionHeight distanceToEnd
      if 0 < effectiveRange then max 0 (min 1 ((x - sectionStart) / effectiveRange)) else 0

/-- The target scroll offset both sync functions compute before the final
clamp: the destination-side (`fb`) start of the current section plus the
fractional progress scaled by the destination-side interpolation domain
(next section's start, or the last-section effective range). -/
def interiorTarget (fa fb : SectionDesc → Dimension) (sections : List SectionDesc)
    (aMax bMax x : ℚ) : ℚ :=
  let idx := currentSectionIdx fa sections x
  let currentSection := sections.getD idx default
  let pos := posInSection fa sections aMax x
  let bSectionStart := (fb currentSection).startOffset
  match sections[idx + 1]? with
  | some nextSection =>
      bSectionStart + ((fb nextSection).startOffset - bSectionStart) * pos
  | none =>
      let sectionHeight := (fb currentSection).height
      let distanceToEnd := bMax - bSectionStart
      let effectiveRange := max sectionHeight distanceToEnd
      bSectionStart + effectiveRange * pos

/-- Common body of `syncEditorToPreview` and `syncPreviewToEditor` (the two
are verbatim mirrors of each other): `fa` projects a section's geometry in
the view the scroll originates from, `fb` in the view being driven.
Returns `null` (`none`) when the mapping has no sections (the
`!mapping || sections.length === 0` guard — `buildScrollMapping` returns
`null` exactly when either tracker's list is empty, in which case the
truncated `sections` list is empty as well).  Then, in source order: both
degenerate max-scroll checks, the `x <= 0` and `x >= maxScrollA - 1` quick
paths, and the interpolated interior value clamped to `[0, bMax]`. -/
def syncGeneric (fa fb : SectionDesc → Dimension) (sections : List SectionDesc)
    (aDims bDims : ScrollDimensions) (x : ℚ) : Option ℚ :=
  if sections.length = 0 then none
  else
    let bMax := bDims.scrollHeight - bDims.clientHeight
    let aMax := aDims.scrollHeight - aDims.clientHeight
    if aMax ≤ 1 then some 0
    else if bMax ≤ 1 then some 0
    else if x ≤ 0 then some 0
    else if aMax - 1 ≤ x then some bMax
    else some (min (max 0 (interiorTarget fa fb sections aMax bMax x)) bMax)

/-- `syncEditorToPreview` from `+page.svelte`: map an editor scroll
position to the corresponding preview scroll position.  The component
refs' current data (`buildScrollMapping()`'s section list and the two
`getScrollDimensions()` results) are passed as arguments. -/
def syncEditorToPreview (sections : List SectionDesc)
    (editorDims previewDims : ScrollDimensions) (editorScrollTop : ℚ) : Option ℚ :=
  syncGeneric (fun s => s.editorDimension) (fun s => s.previewDimension)
    sections editorDims previewDims editorScrollTop

/-- `syncPreviewToEditor` from `+page.svelte`: the mirror of
`syncEditorToPreview`, driving the editor from a preview scroll
position. -/
def syncPreviewToEditor (sections : List SectionDesc)
    (editorDims previewDims : ScrollDimensions) (previewScrollTop : ℚ) : Option ℚ :=
  syncGeneric (fun s => s.previewDimension) (fun s => s.editorDimension)
    sections previewDims editorDims previewScrollTop

/-- The view maximum scroll range `scrollHeight - clientHeight`. -/
def maxScrollOf (d : ScrollDimensions) : ℚ := d.scrollHeight - d.clientHeight

lemma length_ne_zero_of_ne_nil {α : Type} {l : List α} (h : l ≠ []) :
    ¬ l.length = 0 := fun hl => h (List.length_eq_zero.mp hl)

lemma syncGeneric_boundary (fa fb : SectionDesc → Dimension)
    (sections : List SectionDesc) (aDims bDims : ScrollDimensions)
    (hne : sections ≠ []) (ha : 1 < maxScrollOf aDims) (hb : 1 < maxScrollOf bDims) :
    syncGeneric fa fb sections aDims bDims 0 = some 0
    ∧ ∀ x, maxScrollOf aDims - 1 ≤ x →
        syncGeneric fa fb sections aDims bDims x = some (maxScrollOf bDims) := by
  have hlen := length_ne_zero_of_ne_nil hne
  simp only [maxScrollOf] at ha hb ⊢
  constructor
  · simp only [syncGeneric]
    rw [if_neg hlen, if_neg (not_le.mpr ha), if_neg (not_le.mpr hb), if_pos le_rfl]
  · intro x hx
    have hx0 : ¬ x ≤ 0 := not_le.mpr (by linarith)
    simp only [syncGeneric]
    rw [if_neg hlen, if_neg (not_le.mpr ha), if_neg (not_le.mpr hb), if_neg hx0,
      if_pos hx]

/-- C1: for a non-empty section table and both views' maximum scroll
ranges `> 1`, editor→preview maps `0` to `0` and any position at or
beyond `editorMaxScroll - 1` exactly to `previewMaxScroll`; symmetrically
preview→editor maps `0` to `0` and `previewMaxScroll` to
`editorMaxScroll`. -/
theorem scroll_mapping_boundary (sections : List SectionDesc)
    (editorDims previewDims : ScrollDimensions) (hne : sections ≠ [])
    (he : 1 < maxScrollOf editorDims) (hp : 1 < maxScrollOf previewDims) :
    syncEditorToPreview sections editorDims previewDims 0 = some 0
    ∧ (∀ x, maxScrollOf editorDims - 1 ≤ x →
        syncEditorToPreview sections editorDims previewDims x =
          some (maxScrollOf previewDims))
    ∧ syncPreviewToEditor sections editorDims previewDims 0 = some 0
    ∧ syncPreviewToEditor sections editorDims previewDims (maxScrollOf previewDims) =
        some (maxScrollOf editorDims) := by
  obtain ⟨h1, h2⟩ := syncGeneric_boundary (fun s => s.editorDimension)
    (fun s => s.previewDimension) sections editorDims previewDims hne he hp
  obtain ⟨h3, h4⟩ := syncGeneric_boundary (fun s => s.previewDimension)
    (fun s => s.editorDimension) sections previewDims editorDims hne hp he
  exact ⟨h1, h2, h3, h4 _ (by linarith)⟩

/-- Concrete data for witnesses: a two-section table and view dimensions
with maximum scroll ranges `8` (editor) and `4` (preview). -/
def wSections : List SectionDesc :=
  [{ editorDimension := { startOffset := 0, endOffset := 4, height := 4 }
     previewDimension := { startOffset := 0, endOffset := 2, height := 2 } },
   { editorDimension := { startOffset := 4, endOffset := 10, height := 6 }
     previewDimension := { startOffset := 2, endOffset := 5, height := 3 } }]

def wEditorDims : ScrollDimensions :=
  { scrollTop := 0, scrollHeight := 10, clientHeight := 2 }

def wPreviewDims : ScrollDimensions :=
  { scrollTop := 0, scrollHeight := 5, clientHeight := 1 }

theorem scroll_mapping_boundary_check :
    syncEditorToPreview wSections wEditorDims wPreviewDims 0 = some 0
    ∧ (∀ x, maxScrollOf wEditorDims - 1 ≤ x →
        syncEditorToPreview wSections wEditorDims wPreviewDims x =
          some (maxScrollOf wPreviewDims))
    ∧ syncPreviewToEditor wSections wEditorDims wPreviewDims 0 = some 0
    ∧ syncPreviewToEditor wSections wEditorDims wPreviewDims
        (maxScrollOf wPreviewDims) = some (maxScrollOf wEditorDims) :=
  scroll_mapping_boundary wSections wEditorDims wPreviewDims
    (by decide) (by norm_num [maxScrollOf, wEditorDims])
    (by norm_num [maxScrollOf, wPreviewDims])

lemma syncGeneric_degenerate (fa fb : SectionDesc → Dimension)
    (sections : List SectionDesc) (aDims bDims : ScrollDimensions)
    (hne : sections ≠ [])
    (hdeg : maxScrollOf aDims ≤ 1 ∨ maxScrollOf bDims ≤ 1) (x : ℚ) :
    syncGeneric fa fb sections aDims bDims x = some 0 := by
  have hlen := length_ne_zero_of_ne_nil hne
  simp only [maxScrollOf] at hdeg
  simp only [syncGeneric]
  rw [if_neg hlen]
  by_cases h1 : aDims.scrollHeight - aDims.clientHeight ≤ 1
  · rw [if_pos h1]
  · rw [if_neg h1, if_pos (hdeg.resolve_left h1)]

/-- C7: whenever either view's maximum scroll range
(`scrollHeight - clientHeight`) is `≤ 1`, both mapping directions return
`0` for every scroll position — the guarded early return fires before any
interpolation, so no division by a zero or near-zero scroll range is ever
performed. -/
theorem scroll_mapping_degenerate (sections : List SectionDesc)
    (editorDims previewDims : ScrollDimensions) (hne : sections ≠ [])
    (hdeg : maxScrollOf editorDims ≤ 1 ∨ maxScrollOf previewDims ≤ 1) (x : ℚ) :
    syncEditorToPreview sections editorDims previewDims x = some 0
    ∧ syncPreviewToEditor sections editorDims previewDims x = some 0 :=
  ⟨syncGeneric_degenerate (fun s => s.editorDimension) (fun s => s.previewDimension)
      sections editorDims previewDims hne hdeg x,
   syncGeneric_degenerate (fun s => s.previewDimension) (fun s => s.editorDimension)
      sections previewDims editorDims hne hdeg.symm x⟩

def wShortPreviewDims : ScrollDimensions :=
  { scrollTop := 0, scrollHeight := 3, clientHeight := 3 }

theorem scroll_mapping_degenerate_check :
    syncEditorToPreview wSections wEditorDims wShortPreviewDims 5 = some 0
    ∧ syncPreviewToEditor wSections wEditorDims wShortPreviewDims 5 = some 0 :=
  scroll_mapping_degenerate wSections wEditorDims wShortPreviewDims
    (by decide) (Or.inr (by norm_num [maxScrollOf, wShortPreviewDims])) 5

lemma takeWhile_len_le {α : Type} (p : α → Bool) (l : List α) :
    (l.takeWhile p).length ≤ l.length := by
  induction l with
  | nil => simp
  | cons a l ih =>
      rw [List.takeWhile_cons]
      by_cases h : p a = true
      · rw [if_pos h]
        simpa using ih
      · rw [if_neg h]
        simp

lemma takeWhile_len_mono {α : Type} {p q : α → Bool} (l : List α)
    (h : ∀ a, p a = true → q a = true) :
    (l.takeWhile p).length ≤ (l.takeWhile q).length := by
  induction l with
  | nil => simp
  | cons a l ih =>
      rw [List.takeWhile_cons, List.takeWhile_cons]
      by_cases hp : p a = true
      · rw [if_pos hp, if_pos (h a hp)]
        simpa using ih
      · rw [if_neg hp]
        simp

lemma currentSectionIdx_lt (fa : SectionDesc → Dimension) (sections : List SectionDesc)
    (x : ℚ) (hne : sections ≠ []) :
    currentSectionIdx fa sections x < sections.length := by
  unfold currentSectionIdx
  have h1 := takeWhile_len_le (fun s => decide ((fa s).startOffset ≤ x)) sections
  have h2 : 0 < sections.length := List.length_pos.mpr hne
  omega

lemma currentSectionIdx_mono (fa : SectionDesc → Dimension) (sections : List SectionDesc)
    {x1 x2 : ℚ} (h : x1 ≤ x2) :
    currentSectionIdx fa sections x1 ≤ currentSectionIdx fa sections x2 := by
  unfold currentSectionIdx
  have hpq : ∀ s : SectionDesc, decide ((fa s).startOffset ≤ x1) = true →
      decide ((fa s).startOffset ≤ x2) = true := by
    intro s hs
    simp only [decide_eq_true_eq] at hs ⊢
    exact le_trans hs h
  have := takeWhile_len_mono sections hpq
  omega

lemma getD_eq_get {α : Type} [Inhabited α] (l : List α) (i : Nat) (h : i < l.length) :
    l.getD i default = l[i] := by
  rw [List.getD_eq_getElem?_getD, List.getElem?_eq_getElem h]
  rfl

lemma posInSection_nonneg (fa : SectionDesc → Dimension) (sections : List SectionDesc)
    (aMax x : ℚ) : 0 ≤ posInSection fa sections aMax x := by
  simp only [posInSection]
  cases hnext : sections[currentSectionIdx fa sections x + 1]? with
  | some next =>
      simp only [hnext]
      split
      · exact le_max_left 0 _
      · exact le_rfl
  | none =>
      simp only [hnext]
      split
      · exact le_max_left 0 _
      · exact le_rfl

lemma posInSection_le_one (fa : SectionDesc → Dimension) (sections : List SectionDesc)
    (aMax x : ℚ) : posInSection fa sections aMax x ≤ 1 := by
  simp only [posInSection]
  cases hnext : sections[currentSectionIdx fa sections x + 1]? with
  | some next =>
      simp only [hnext]
      split
      · exact max_le (by norm_num) (min_le_left _ _)
      · norm_num
  | none =>
      simp only [hnext]
      split
      · exact max_le (by norm_num) (min_le_left _ _)
      · norm_num

lemma posInSection_mono (fa : SectionDesc → Dimension) (sections : List SectionDesc)
    (aMax : ℚ) {x1 x2 : ℚ} (h12 : x1 ≤ x2)
    (hidx : currentSectionIdx fa sections x1 = currentSectionIdx fa sections x2) :
    posInSection fa sections aMax x1 ≤ posInSection fa sections aMax x2 := by
  simp only [posInSection]
  rw [← hidx]
  cases hnext : sections[currentSectionIdx fa sections x1 + 1]? with
  | some next =>
      simp only [hnext]
      split
      · rename_i hr
        have hdiv := (div_le_div_iff_of_pos_right hr).mpr
          (by linarith :
            x1 - (fa (sections.getD (currentSectionIdx fa sections x1) default)).startOffset ≤
            x2 - (fa (sections.getD (currentSectionIdx fa sections x1) default)).startOffset)
        exact max_le_max le_rfl (min_le_min le_rfl hdiv)
      · exact le_rfl
  | none =>
      simp only [hnext]
      split
      · rename_i hr
        have hdiv := (div_le_div_iff_of_pos_right hr).mpr
          (by linarith :
            x1 - (fa (sections.getD (currentSectionIdx fa sections x1) default)).startOffset ≤
            x2 - (fa (sections.getD (currentSectionIdx fa sections x1) default)).startOffset)
        exact max_le_max le_rfl (min_le_min le_rfl hdiv)
      · exact le_rfl

/-- The claim's side condition: the per-view `startOffset` values of the
section table are non-decreasing in section order. -/
def startOffsetsMono (f : SectionDesc → Dimension) (sections : List SectionDesc) : Prop :=
  ∀ k, k + 1 < sections.length →
    (f (sections.getD k default)).startOffset ≤
      (f (sections.getD (k + 1) default)).startOffset

lemma startOffsetsMono_le {f : SectionDesc → Dimension} {sections : List SectionDesc}
    (hmono : startOffsetsMono f sections) :
    ∀ {i j : Nat}, i ≤ j → j < sections.length →
      (f (sections.getD i default)).startOffset ≤
        (f (sections.getD j default)).startOffset := by
  intro i j
  induction j with
  | zero =>
      intro hij _
      have : i = 0 := by omega
      rw [this]
  | succ j ih =>
      intro hij hj
      by_cases hij' : i = j + 1
      · rw [hij']
      · exact le_trans (ih (by omega) (by omega)) (hmono j hj)

lemma getElem?_succ_some_of_lt {α : Type} (l : List α) {i : Nat} (h : i + 1 < l.length) :
    l[i + 1]? = some l[i + 1] := List.getElem?_eq_getElem h

lemma lt_length_of_getElem?_some {α : Type} {l : List α} {i : Nat} {a : α}
    (h : l[i]? = some a) : i < l.length := by
  by_contra hc
  rw [List.getElem?_eq_none (by omega)] at h
  exact Option.noConfusion h

/-- Lower bound on the raw interior target: it is at least the
destination-side start of the current section, except in the
negative-effective-range corner of the last section where it is at least
`bMax` (and the final clamp then pins the result to `bMax`). -/
lemma interiorTarget_lb (fa fb : SectionDesc → Dimension) (sections : List SectionDesc)
    (aMax bMax : ℚ) (hB : startOffsetsMono fb sections) (x : ℚ) :
    (fb (sections.getD (currentSectionIdx fa sections x) default)).startOffset ≤
        interiorTarget fa fb sections aMax bMax x
    ∨ bMax ≤ interiorTarget fa fb sections aMax bMax x := by
  simp only [interiorTarget]
  cases hnext : sections[currentSectionIdx fa sections x + 1]? with
  | some next =>
      left
      simp only [hnext]
      have hlt := lt_length_of_getElem?_some hnext
      have hnextD : next = sections.getD (currentSectionIdx fa sections x + 1) default := by
        rw [getD_eq_get sections _ hlt]
        have h2 := getElem?_succ_some_of_lt sections hlt
        rw [hnext] at h2
        exact Option.some.inj h2
      have hΔ : 0 ≤ (fb next).startOffset -
          (fb (sections.getD (currentSectionIdx fa sections x) default)).startOffset := by
        rw [hnextD]
        have := hB (currentSectionIdx fa sections x) hlt
        linarith
      have hpos := posInSection_nonneg fa sections aMax x
      nlinarith [mul_nonneg hΔ hpos]
  | none =>
      simp only [hnext]
      by_cases heff :
          0 ≤ max (fb (sections.getD (currentSectionIdx fa sections x) default)).height
            (bMax - (fb (sections.getD (currentSectionIdx fa sections x) default)).startOffset)
      · left
        have hpos := posInSection_nonneg fa sections aMax x
        nlinarith [mul_nonneg heff hpos]
      · right
        have hple := posInSection_le_one fa sections aMax x
        have heff' := lt_of_not_le heff
        have hmul : max (fb (sections.getD (currentSectionIdx fa sections x) default)).height
              (bMax - (fb (sections.getD (currentSectionIdx fa sections x) default)).startOffset) *
              1 ≤
            max (fb (sections.getD (currentSectionIdx fa sections x) default)).height
              (bMax - (fb (sections.getD (currentSectionIdx fa sections x) default)).startOffset) *
              posInSection fa sections aMax x :=
          mul_le_mul_of_nonpos_left hple (le_of_lt heff')
        have hrange : bMax -
            (fb (sections.getD (currentSectionIdx fa sections x) default)).startOffset ≤
            max (fb (sections.getD (currentSectionIdx fa sections x) default)).height
              (bMax - (fb (sections.getD (currentSectionIdx fa sections x) default)).startOffset) :=
          le_max_right _ _
        linarith

/-- Upper bound on the raw interior target when the current section is not
the last: it does not exceed the destination-side start of the next
section. -/
lemma interiorTarget_ub (fa fb : SectionDesc → Dimension) (sections : List SectionDesc)
    (aMax bMax : ℚ) (hB : startOffsetsMono fb sections) (x : ℚ)
    (hlt : currentSectionIdx fa sections x + 1 < sections.length) :
    interiorTarget fa fb sections aMax bMax x ≤
      (fb (sections.getD (currentSectionIdx fa sections x + 1) default)).startOffset := by
  simp only [interiorTarget]
  rw [getElem?_succ_some_of_lt sections hlt]
  simp only
  rw [← getD_eq_get sections _ hlt]
  have hΔ : 0 ≤ (fb (sections.getD (currentSectionIdx fa sections x + 1) default)).startOffset -
      (fb (sections.getD (currentSectionIdx fa sections x) default)).startOffset := by
    have := hB (currentSectionIdx fa sections x) hlt
    linarith
  have hple := posInSection_le_one fa sections aMax x
  nlinarith [mul_le_mul_of_nonneg_left hple hΔ]

lemma clamp_le_clamp {a b c : ℚ} (h : a ≤ b) : min (max 0 a) c ≤ min (max 0 b) c :=
  min_le_min (max_le_max le_rfl h) le_rfl

lemma clamp_eq_of_ge {a c : ℚ} (h : c ≤ a) : min (max 0 a) c = c :=
  min_eq_right (le_trans h (le_max_right 0 a))

lemma interiorTarget_mono_same_idx (fa fb : SectionDesc → Dimension)
    (sections : List SectionDesc) (aMax bMax : ℚ) (hB : startOffsetsMono fb sections)
    {x1 x2 : ℚ} (h12 : x1 ≤ x2)
    (hidx : currentSectionIdx fa sections x1 = currentSectionIdx fa sections x2) :
    min (max 0 (interiorTarget fa fb sections aMax bMax x1)) bMax ≤
      min (max 0 (interiorTarget fa fb sections aMax bMax x2)) bMax := by
  have hpos := posInSection_mono fa sections aMax h12 hidx
  simp only [interiorTarget]
  rw [← hidx]
  cases hnext : sections[currentSectionIdx fa sections x1 + 1]? with
  | some next =>
      simp only [hnext]
      have hlt := lt_length_of_getElem?_some hnext
      have hnextD : next = sections.getD (currentSectionIdx fa sections x1 + 1) default := by
        rw [getD_eq_get sections _ hlt]
        have h2 := getElem?_succ_some_of_lt sections hlt
        rw [hnext] at h2
        exact Option.some.inj h2
      have hΔ : 0 ≤ (fb next).startOffset -
          (fb (sections.getD (currentSectionIdx fa sections x1) default)).startOffset := by
        rw [hnextD]
        have := hB (currentSectionIdx fa sections x1) hlt
        linarith
      apply clamp_le_clamp
      nlinarith [mul_le_mul_of_nonneg_left hpos hΔ]
  | none =>
      simp only [hnext]
      set bS := (fb (sections.getD (currentSectionIdx fa sections x1) default)).startOffset
        with hbSdef
      set hgt := (fb (sections.getD (currentSectionIdx fa sections x1) default)).height
        with hhgtdef
      by_cases heff : 0 ≤ max hgt (bMax - bS)
      · apply clamp_le_clamp
        nlinarith [mul_le_mul_of_nonneg_left hpos heff]
      · have heff' := lt_of_not_le heff
        have hbound : ∀ p : ℚ, p ≤ 1 → bMax ≤ bS + max hgt (bMax - bS) * p := by
          intro p hp
          have hm : max hgt (bMax - bS) * 1 ≤ max hgt (bMax - bS) * p :=
            mul_le_mul_of_nonpos_left hp (le_of_lt heff')
          have hr : bMax - bS ≤ max hgt (bMax - bS) := le_max_right _ _
          linarith
        rw [clamp_eq_of_ge (hbound _ (posInSection_le_one fa sections aMax x1)),
          clamp_eq_of_ge (hbound _ (posInSection_le_one fa sections aMax x2))]

lemma clamped_interiorTarget_mono (fa fb : SectionDesc → Dimension)
    (sections : List SectionDesc) (aMax bMax : ℚ) (hne : sections ≠ [])
    (hB : startOffsetsMono fb sections) {x1 x2 : ℚ} (h12 : x1 ≤ x2) :
    min (max 0 (interiorTarget fa fb sections aMax bMax x1)) bMax ≤
      min (max 0 (interiorTarget fa fb sections aMax bMax x2)) bMax := by
  have hij := currentSectionIdx_mono fa sections h12
  rcases eq_or_lt_of_le hij with heq | hlt
  · exact interiorTarget_mono_same_idx fa fb sections aMax bMax hB h12 heq
  · have hj : currentSectionIdx fa sections x2 < sections.length :=
      currentSectionIdx_lt fa sections x2 hne
    have hi1 : currentSectionIdx fa sections x1 + 1 < sections.length := by omega
    have hub := interiorTarget_ub fa fb sections aMax bMax hB x1 hi1
    have hmid := startOffsetsMono_le hB
      (by omega : currentSectionIdx fa sections x1 + 1 ≤ currentSectionIdx fa sections x2) hj
    rcases interiorTarget_lb fa fb sections aMax bMax hB x2 with hlb | hlb
    · exact clamp_le_clamp (le_trans hub (le_trans hmid hlb))
    · rw [clamp_eq_of_ge hlb]
      exact min_le_right _ _

lemma syncGeneric_mono (fa fb : SectionDesc → Dimension) (sections : List SectionDesc)
    (aDims bDims : ScrollDimensions) (hne : sections ≠ [])
    (hB : startOffsetsMono fb sections)
    (ha : 1 < maxScrollOf aDims) (hb : 1 < maxScrollOf bDims)
    {x1 x2 : ℚ} (h12 : x1 ≤ x2) :
    ∃ y1 y2, syncGeneric fa fb sections aDims bDims x1 = some y1
      ∧ syncGeneric fa fb sections aDims bDims x2 = some y2 ∧ y1 ≤ y2 := by
  have hlen := length_ne_zero_of_ne_nil hne
  simp only [maxScrollOf] at ha hb
  simp only [syncGeneric, if_neg hlen, if_neg (not_le.mpr ha), if_neg (not_le.mpr hb)]
  by_cases h1 : x1 ≤ 0
  · rw [if_pos h1]
    by_cases h2 : x2 ≤ 0
    · rw [if_pos h2]
      exact ⟨0, 0, rfl, rfl, le_rfl⟩
    · rw [if_neg h2]
      by_cases h3 : aDims.scrollHeight - aDims.clientHeight - 1 ≤ x2
      · rw [if_pos h3]
        exact ⟨0, _, rfl, rfl, by linarith⟩
      · rw [if_neg h3]
        exact ⟨0, _, rfl, rfl, le_min (le_max_left 0 _) (by linarith)⟩
  · rw [if_neg h1]
    have h2 : ¬ x2 ≤ 0 := fun hc => h1 (le_trans h12 hc)
    rw [if_neg h2]
    by_cases h3 : aDims.scrollHeight - aDims.clientHeight - 1 ≤ x1
    · rw [if_pos h3, if_pos (le_trans h3 h12)]
      exact ⟨_, _, rfl, rfl, le_rfl⟩
    · rw [if_neg h3]
      by_cases h4 : aDims.scrollHeight - aDims.clientHeight - 1 ≤ x2
      · rw [if_pos h4]
        exact ⟨_, _, rfl, rfl, min_le_right _ _⟩
      · rw [if_neg h4]
        exact ⟨_, _, rfl, rfl, clamped_interiorTarget_mono fa fb sections
          (aDims.scrollHeight - aDims.clientHeight)
          (bDims.scrollHeight - bDims.clientHeight) hne hB h12⟩

/-- C2: under a fixed non-empty section table whose editor-side and
preview-side `startOffset` values are each non-decreasing in section
order, and with both views' maximum scroll ranges `> 1`, both mapping
directions are monotone: `0 ≤ x1 < x2` (with `x2` within the source
view's maximum scroll range) implies the mapped positions satisfy
`y1 ≤ y2`. -/
theorem scroll_mapping_monotone (sections : List SectionDesc)
    (editorDims previewDims : ScrollDimensions) (hne : sections ≠ [])
    (hEd : startOffsetsMono (fun s => s.editorDimension) sections)
    (hPv : startOffsetsMono (fun s => s.previewDimension) sections)
    (he : 1 < maxScrollOf editorDims) (hp : 1 < maxScrollOf previewDims)
    (x1 x2 : ℚ) (_h0 : 0 ≤ x1) (h12 : x1 < x2) :
    (x2 ≤ maxScrollOf editorDims →
      ∃ y1 y2, syncEditorToPreview sections editorDims previewDims x1 = some y1
        ∧ syncEditorToPreview sections editorDims previewDims x2 = some y2
        ∧ y1 ≤ y2)
    ∧ (x2 ≤ maxScrollOf previewDims →
      ∃ y1 y2, syncPreviewToEditor sections editorDims previewDims x1 = some y1
        ∧ syncPreviewToEditor sections editorDims previewDims x2 = some y2
        ∧ y1 ≤ y2) :=
  ⟨fun _ => syncGeneric_mono (fun s => s.editorDimension) (fun s => s.previewDimension)
      sections editorDims previewDims hne hPv he hp (le_of_lt h12),
   fun _ => syncGeneric_mono (fun s => s.previewDimension) (fun s => s.editorDimension)
      sections previewDims editorDims hne hEd hp he (le_of_lt h12)⟩

theorem scroll_mapping_monotone_check :
    (∃ y1 y2, syncEditorToPreview wSections wEditorDims wPreviewDims 1 = some y1
      ∧ syncEditorToPreview wSections wEditorDims wPreviewDims 3 = some y2 ∧ y1 ≤ y2)
    ∧ (∃ y1 y2, syncPreviewToEditor wSections wEditorDims wPreviewDims 1 = some y1
      ∧ syncPreviewToEditor wSections wEditorDims wPreviewDims 3 = some y2 ∧ y1 ≤ y2) := by
  have hEd : startOffsetsMono (fun s => s.editorDimension) wSections := by
    intro k hk
    have hk0 : k = 0 := by
      simp only [wSections, List.length_cons, List.length_nil] at hk
      omega
    subst hk0
    decide
  have hPv : startOffsetsMono (fun s => s.previewDimension) wSections := by
    intro k hk
    have hk0 : k = 0 := by
      simp only [wSections, List.length_cons, List.length_nil] at hk
      omega
    subst hk0
    decide
  have hmain := scroll_mapping_monotone wSections wEditorDims wPreviewDims
    (by decide) hEd hPv (by norm_num [maxScrollOf, wEditorDims])
    (by norm_num [maxScrollOf, wPreviewDims]) 1 3 (by norm_num) (by norm_num)
  exact ⟨hmain.1 (by norm_num [maxScrollOf, wEditorDims]),
    hmain.2 (by norm_num [maxScrollOf, wPreviewDims])⟩

/-- The `scrollSource` flag of `+page.svelte`:
`'editor' | 'preview' | null` is modelled as `Option ScrollSource`. -/
inductive ScrollSource where
  | editor
  | preview
deriving DecidableEq, Repr

/-- The transient coordination state of the sync controller in
`+page.svelte`: `scrollSource`, `lastEditorScrollTop`,
`lastPreviewScrollTop`.  The 100 ms `scrollSourceTimeout` that later
clears `scrollSource` back to `null` is timing behaviour outside a single
event; the claims here concern the handling of one event. -/
structure SyncState where
  scrollSource : Option ScrollSource
  lastEditorScrollTop : ℚ
  lastPreviewScrollTop : ℚ
deriving DecidableEq, Repr

/-- The surrounding reactive context the handlers read:
`appState.syncScrollEnabled`, the derived `isResizingLayout`, and the
component refs' current section table and scroll dimensions. -/
structure SyncEnv where
  syncScrollEnabled : Bool
  isResizingLayout : Bool
  sections : List SectionDesc
  editorDims : ScrollDimensions
  previewDims : ScrollDimensions

/-- `getScrollSyncThreshold` from `+page.svelte`:
`max(0.5, min(2, editorDims.clientHeight * 0.0005))` (the editor ref's
dimensions are modelled as available; when they are not, the source
returns the same lower bound 0.5). -/
def getScrollSyncThreshold (env : SyncEnv) : ℚ :=
  max (1 / 2) (min 2 (env.editorDims.clientHeight * (5 / 10000)))

/-- The scroll command a handler applies to the opposite view: the
section-mapped absolute offset (`scrollToOffset`), or the
percentage-based fallback (`scrollToPercent`) when the mapping is
unavailable. -/
inductive ScrollCommand where
  | scrollToOffset (offset : ℚ)
  | scrollToPercent (percent : ℚ)
deriving DecidableEq, Repr

/-- `handleEditorScroll` from `+page.svelte`, as a function from the
controller state and the event's `{scrollTop, scrollHeight, clientHeight}`
to the new state and the command applied to the preview (`none` when the
event is dropped by one of the early returns or the micro-update
threshold). -/
def handleEditorScroll (env : SyncEnv) (st : SyncState)
    (scrollInfo : ScrollDimensions) : SyncState × Option ScrollCommand :=
  if !env.syncScrollEnabled then (st, none)
  else if st.scrollSource = some ScrollSource.preview then (st, none)
  else if env.isResizingLayout then (st, none)
  else
    let threshold := getScrollSyncThreshold env
    if |scrollInfo.scrollTop - st.lastEditorScrollTop| < threshold then (st, none)
    else
      let st1 := { st with lastEditorScrollTop := scrollInfo.scrollTop,
                           scrollSource := some ScrollSource.editor }
      match syncEditorToPreview env.sections env.editorDims env.previewDims
          scrollInfo.scrollTop with
      | some targetScroll => (st1, some (ScrollCommand.scrollToOffset targetScroll))
      | none =>
          let maxScroll := scrollInfo.scrollHeight - scrollInfo.clientHeight
          let percent := if 0 < maxScroll then scrollInfo.scrollTop / maxScroll else 0
          (st1, some (ScrollCommand.scrollToPercent percent))

/-- `handlePreviewScroll` from `+page.svelte`, the mirror of
`handleEditorScroll`: the returned command is applied to the editor. -/
def handlePreviewScroll (env : SyncEnv) (st : SyncState)
    (scrollInfo : ScrollDimensions) : SyncState × Option ScrollCommand :=
  if !env.syncScrollEnabled then (st, none)
  else if st.scrollSource = some ScrollSource.editor then (st, none)
  else if env.isResizingLayout then (st, none)
  else
    let threshold := getScrollSyncThreshold env
    if |scrollInfo.scrollTop - st.lastPreviewScrollTop| < threshold then (st, none)
    else
      let st1 := { st with lastPreviewScrollTop := scrollInfo.scrollTop,
                           scrollSource := some ScrollSource.preview }
      match syncPreviewToEditor env.sections env.editorDims env.previewDims
          scrollInfo.scrollTop with
      | some targetScroll => (st1, some (ScrollCommand.scrollToOffset targetScroll))
      | none =>
          let maxScroll := scrollInfo.scrollHeight - scrollInfo.clientHeight
          let percent := if 0 < maxScroll then scrollInfo.scrollTop / maxScroll else 0
          (st1, some (ScrollCommand.scrollToPercent percent))

/-- C9: while the opposite view is marked as the scroll source, a scroll
event from this view is dropped whole: `handlePreviewScroll` with
`scrollSource = 'editor'` leaves the state unchanged and applies no
scroll position to the editor; symmetrically `handleEditorScroll` with
`scrollSource = 'preview'` applies nothing to the preview. -/
theorem scroll_event_dropped (env : SyncEnv) (st : SyncState)
    (scrollInfo : ScrollDimensions) :
    (st.scrollSource = some ScrollSource.editor →
      handlePreviewScroll env st scrollInfo = (st, none))
    ∧ (st.scrollSource = some ScrollSource.preview →
      handleEditorScroll env st scrollInfo = (st, none)) := by
  constructor
  · intro h
    unfold handlePreviewScroll
    by_cases he : env.syncScrollEnabled
    · rw [h]
      simp [he]
    · simp [he]
  · intro h
    unfold handleEditorScroll
    by_cases he : env.syncScrollEnabled
    · rw [h]
      simp [he]
    · simp [he]

/-- Concrete environment for the witness. -/
def wEnv : SyncEnv :=
  { syncScrollEnabled := true, isResizingLayout := false, sections := wSections,
    editorDims := wEditorDims, previewDims := wPreviewDims }

def wStateEditorDriving : SyncState :=
  { scrollSource := some ScrollSource.editor, lastEditorScrollTop := 0,
    lastPreviewScrollTop := 0 }

def wStatePreviewDriving : SyncState :=
  { scrollSource := some ScrollSource.preview, lastEditorScrollTop := 0,
    lastPreviewScrollTop := 0 }

theorem scroll_event_dropped_check :
    handlePreviewScroll wEnv wStateEditorDriving wPreviewDims =
      (wStateEditorDriving, none)
    ∧ handleEditorScroll wEnv wStatePreviewDriving wEditorDims =
      (wStatePreviewDriving, none) :=
  ⟨(scroll_event_dropped wEnv wStateEditorDriving wPreviewDims).1 rfl,
   (scroll_event_dropped wEnv wStatePreviewDriving wEditorDims).2 rfl⟩

end Sveltemark
